import Mathlib

/-!
Shallow embedding of the collaborative-editing core of the CollabCode
repository: the character CRDT (`VectorClock`, `CRDTCharacter`, `CRDT` in
app.js) and the sync engine's message handling and cursor transformation
(`SyncEngine` in the unnamed sync module).  JS strings are modelled as Lean
`String` compared by code point (the app's site ids and record ids are
ASCII, where JS code-unit comparison and `localeCompare` agree with
code-point order); JS numbers holding counters are modelled as `Nat`;
JS `null` returns are modelled with `Option`.
-/

namespace Collab

/-- Lexicographic comparison of character lists by code point, the sign
convention of JS string comparison (`-1`, `0`, `1`). -/
def lcmp : List Char → List Char → Int
  | [], [] => 0
  | [], _ :: _ => -1
  | _ :: _, [] => 1
  | a :: as, b :: bs => if a < b then -1 else if b < a then 1 else lcmp as bs

/-- String comparison by code point (models JS relational operators and
`localeCompare` on the ASCII identifiers used by the app). -/
def scmp (a b : String) : Int := lcmp a.data b.data

/-- Strict string order induced by `scmp`. -/
def strLt (a b : String) : Prop := scmp a b < 0

instance (a b : String) : Decidable (strLt a b) := by unfold strLt; infer_instance

/-- A vector clock: a JS object mapping site-id strings to counters,
modelled as an insertion-ordered association list. -/
abbrev Clock := List (String × Nat)

/-- Lookup in a clock object; a missing key reads as `0`
(JS `clock[site] || 0`). -/
def getC (c : Clock) (s : String) : Nat := ((c.find? (fun p => p.1 == s)).map (·.2)).getD 0

/-- JS object property write: overwrite an existing key in place, otherwise
append in insertion order. -/
def setC (c : Clock) (s : String) (v : Nat) : Clock :=
  if c.any (fun p => p.1 == s) then c.map (fun p => if p.1 = s then (s, v) else p)
  else c ++ [(s, v)]

/-- Embeds `VectorClock.increment`: bump one site's component. -/
def increment (c : Clock) (site : String) : Clock := setC c site (getC c site + 1)

/-- Embeds `VectorClock.update`: componentwise max over the other clock's keys. -/
def mergeClock (a b : Clock) : Clock :=
  b.foldl (fun acc p => setC acc p.1 (max (getC acc p.1) p.2)) a

/-- Embeds `Object.assign(base, b)`: copy every key of `b` into `base`. -/
def assignClock (base b : Clock) : Clock :=
  b.foldl (fun acc p => setC acc p.1 p.2) base

/-- The keys scanned by `VectorClock.compareTo` (union of both key sets;
duplicates are harmless for the `any` scans). -/
def sites (a b : Clock) : List String := a.map Prod.fst ++ b.map Prod.fst

/-- Embeds `VectorClock.compareTo`: `some (-1)` = Before, `some 1` = After,
`some 0` = Equal, `none` = Concurrent (JS `null`). -/
def compareTo (mine other : Clock) : Option Int :=
  let isLess := (sites mine other).any (fun s => getC mine s < getC other s)
  let isGreater := (sites mine other).any (fun s => getC other s < getC mine s)
  if isLess && !isGreater then some (-1)
  else if isGreater && !isLess then some 1
  else if !isLess && !isGreater then some 0
  else none

/-- Embeds `CRDTCharacter`: one character record of the document. -/
structure CharRecord where
  value : Char
  id : String
  siteId : String
  vectorClock : Clock
  visible : Bool
  deriving DecidableEq, Repr

/-- Insert a string into a list sorted by `scmp`. -/
def insortStr (x : String) : List String → List String
  | [] => [x]
  | y :: ys => if scmp x y ≤ 0 then x :: y :: ys else y :: insortStr x ys

/-- Insertion sort of strings by code-point order (models JS
`Array.prototype.sort`, which sorts by code units). -/
def ssort : List String → List String
  | [] => []
  | x :: xs => insortStr x (ssort xs)

/-- Sorted, deduplicated union of the site keys of two clocks
(`Array.from(new Set([...keys1, ...keys2])).sort()`). -/
def sortedSites (a b : Clock) : List String :=
  ssort ((a.map Prod.fst ++ b.map Prod.fst).dedup)

/-- The clock-comparison loop of `CRDT.compareCharacters`: walk the given
key list and decide at the first differing component (`v1 - v2`). -/
def clockCmpKeys (a b : Clock) : List String → Int
  | [] => 0
  | s :: rest =>
    if getC a s ≠ getC b s then (getC a s : Int) - (getC b s : Int)
    else clockCmpKeys a b rest

/-- First stage of `CRDT.compareCharacters`: compare two origin clocks over
the sorted union of their site keys. -/
def clockCmp (a b : Clock) : Int := clockCmpKeys a b (sortedSites a b)

/-- Embeds `CRDT.compareCharacters`: clock comparison, then site id, then the full
record-id string (JS `localeCompare`). -/
def compareCharacters (c1 c2 : CharRecord) : Int :=
  if clockCmp c1.vectorClock c2.vectorClock ≠ 0 then clockCmp c1.vectorClock c2.vectorClock
  else if c1.siteId ≠ c2.siteId then scmp c1.siteId c2.siteId
  else scmp c1.id c2.id

/-- Tag of a local operation record (`operation.type`). -/
inductive OpType where
  | insert
  | delete
  deriving DecidableEq, Repr

/-- A local operation record as pushed onto `CRDT.operationHistory`. -/
structure Operation where
  type : OpType
  position : Nat
  char : Option CharRecord
  charId : Option String
  timestamp : Nat
  vectorClock : Clock
  deriving DecidableEq, Repr

/-- The `CRDT` replica state. -/
structure CRDT where
  siteId : String
  vectorClock : Clock
  characters : List CharRecord
  counter : Nat
  operationHistory : List Operation
  deriving DecidableEq, Repr

/-- A freshly constructed replica (`new CRDT(siteId)`). -/
def initCRDT (site : String) : CRDT :=
  { siteId := site, vectorClock := [(site, 0)], characters := [], counter := 0
    operationHistory := [] }

/-- Number of visible records (length of the visible text). -/
def countVisible (l : List CharRecord) : Nat := (l.filter (·.visible)).length

/-- Embeds `CRDT.getText`: the visible text. -/
def getText (s : CRDT) : String := ⟨(s.characters.filter (·.visible)).map (·.value)⟩

/-- Embeds `CRDT.getVisiblePosition`: internal index of the `index`-th visible
record, or the sequence length when there are not that many visibles. -/
def gvp : List CharRecord → Nat → Nat
  | [], _ => 0
  | c :: cs, i =>
    if c.visible then
      match i with
      | 0 => 0
      | i + 1 => 1 + gvp cs i
    else 1 + gvp cs i

/-- Embeds `CRDT.localInsert`: increment the clock, mint a record, and splice it at
the internal index resolved from the visible position. -/
def localInsert (s : CRDT) (position : Nat) (value : Char) : Operation × CRDT :=
  let vc := increment s.vectorClock s.siteId
  let c : CharRecord :=
    { value := value, id := s.siteId ++ "-" ++ toString s.counter, siteId := s.siteId
      vectorClock := vc, visible := true }
  let k := gvp s.characters position
  let op : Operation :=
    { type := .insert, position := k, char := some c, charId := none
      timestamp := getC vc s.siteId, vectorClock := vc }
  (op, { s with vectorClock := vc, counter := s.counter + 1
                characters := s.characters.take k ++ c :: s.characters.drop k
                operationHistory := s.operationHistory ++ [op] })

/-- Embeds `CRDT.localDelete`: the clock is incremented first; an out-of-range
position (or a non-visible target, unreachable via `gvp`) returns `none`
with no further mutation. -/
def localDelete (s : CRDT) (position : Nat) : Option Operation × CRDT :=
  let vc := increment s.vectorClock s.siteId
  let k := gvp s.characters position
  match s.characters[k]? with
  | none => (none, { s with vectorClock := vc })
  | some c =>
    if c.visible then
      let op : Operation :=
        { type := .delete, position := k, char := none, charId := some c.id
          timestamp := getC vc s.siteId, vectorClock := vc }
      (some op, { s with vectorClock := vc
                         characters := s.characters.set k { c with visible := false }
                         operationHistory := s.operationHistory ++ [op] })
    else (none, { s with vectorClock := vc })

/-- The insertion index computed by `CRDT.remoteInsert`'s scan: the length
of the maximal prefix of records comparing strictly below the new one. -/
def insertIdx (chars : List CharRecord) (c : CharRecord) : Nat :=
  (chars.takeWhile (fun x => compareCharacters x c < 0)).length

/-- Embeds `CRDT.remoteInsert`: merge clocks, then splice the record at its ordered
position unless a record with the same id already exists. -/
def remoteInsert (s : CRDT) (opClock : Clock) (c : CharRecord) : CRDT :=
  let idx := insertIdx s.characters c
  { s with vectorClock := mergeClock s.vectorClock opClock
           characters :=
             if s.characters.any (fun x => x.id = c.id) then s.characters
             else s.characters.take idx ++ c :: s.characters.drop idx }

/-- Flip the first record with the given id to a tombstone
(`findIndex` + `visible = false`); no record found leaves the list as is. -/
def setVisibleFalseFirst : List CharRecord → String → List CharRecord
  | [], _ => []
  | c :: cs, tid =>
    if c.id = tid then { c with visible := false } :: cs
    else c :: setVisibleFalseFirst cs tid

/-- Embeds `CRDT.remoteDelete`: merge clocks and tombstone the target if present;
an unknown target id is silently ignored. -/
def remoteDelete (s : CRDT) (opClock : Clock) (tid : String) : CRDT :=
  { s with vectorClock := mergeClock s.vectorClock opClock
           characters := setVisibleFalseFirst s.characters tid }

/-- Embeds `CRDT.garbageCollect`: keep all visible records, then the last
`keepRecent` tombstones (JS `slice(-keepRecent)`; note `slice(-0)` keeps
the whole array). -/
def garbageCollect (s : CRDT) (keepRecent : Nat) : CRDT :=
  let tombs := s.characters.filter (fun c => !c.visible)
  { s with characters :=
      s.characters.filter (·.visible) ++
        (if keepRecent = 0 then tombs else tombs.drop (tombs.length - keepRecent)) }

/-- A deserialized remote operation, as dispatched by
`SyncEngine.handleMessage` on `operation.type`. -/
inductive Op where
  | ins (clock : Clock) (rec : CharRecord)
  | del (clock : Clock) (targetId : String)
  deriving DecidableEq, Repr

/-- The vector clock carried by a remote operation (`operation.vectorClock`). -/
def Op.clock : Op → Clock
  | .ins k _ => k
  | .del k _ => k

/-- Dispatch a remote operation to `remoteInsert` / `remoteDelete`. -/
def applyRemote (s : CRDT) : Op → CRDT
  | .ins k r => remoteInsert s k r
  | .del k t => remoteDelete s k t

/-- Apply a list of remote operations left to right. -/
def applyOps (l : List Op) (s : CRDT) : CRDT := l.foldl applyRemote s

/-- Payload of an inbound message (`message.type` with its fields). -/
inductive MsgKind where
  | operation (o : Op)
  | ack (ackId : String)
  deriving DecidableEq, Repr

/-- An inbound message as consumed by `SyncEngine.handleMessage`. -/
structure Message where
  siteId : String
  messageId : String
  kind : MsgKind
  deriving DecidableEq, Repr

/-- The `SyncEngine` state touched by `handleMessage`: the CRDT, the
insertion-ordered `receivedOperations` dedup set, and the ids of the
`pendingAcks` table. -/
structure Sync where
  crdt : CRDT
  received : List String
  pendingAcks : List String
  deriving DecidableEq, Repr

/-- Embeds `SyncEngine.handleMessage`.  Returns the new state together with the
acks broadcast by `sendAck`, as `(ack_id, target_site)` pairs; an ack is
emitted exactly when the remote-operation callback fires.  An operation is
applied only when the local clock compares to the operation's clock as
Concurrent (`none`) or Before (`some (-1)`); otherwise it is dropped with a
warning (the "operation from the past" branch). -/
def handleMessage (st : Sync) (m : Message) : Sync × List (String × String) :=
  if m.siteId = st.crdt.siteId then (st, [])
  else if m.messageId ∈ st.received then (st, [])
  else
    let received := st.received ++ [m.messageId]
    let received := if received.length > 1000 then received.drop 500 else received
    match m.kind with
    | .operation o =>
      let comparison := compareTo st.crdt.vectorClock o.clock
      if comparison = none ∨ comparison = some (-1) then
        ({ st with crdt := applyRemote st.crdt o, received := received },
          [(m.messageId, m.siteId)])
      else ({ st with received := received }, [])
    | .ack aid =>
      ({ st with received := received, pendingAcks := st.pendingAcks.filter (· ≠ aid) }, [])

/-- Embeds `SyncEngine.transformCursorPosition`: replay the local operation log,
adjusting the reported position by the operations whose clock compares
After (`some 1`) the reported clock, then floor at `0`. -/
def transformCursorPosition (s : CRDT) (position : Int) (remoteClock : Clock) : Int :=
  let transformed := s.operationHistory.foldl (fun t op =>
    if compareTo (assignClock [(s.siteId, 0)] op.vectorClock) remoteClock = some 1 then
      match op.type with
      | .insert => if (op.position : Int) ≤ t then t + 1 else t
      | .delete => if (op.position : Int) < t then t - 1 else t
    else t) position
  max 0 transformed

/-! Helper lemmas about visible positions. -/

theorem countVisible_nil : countVisible [] = 0 := rfl

theorem countVisible_cons (c : CharRecord) (cs : List CharRecord) :
    countVisible (c :: cs) = (if c.visible then 1 else 0) + countVisible cs := by
  simp only [countVisible, List.filter_cons]
  split <;> simp [Nat.add_comm]

theorem gvp_le_length : ∀ (l : List CharRecord) (i : Nat), gvp l i ≤ l.length := by
  intro l
  induction l with
  | nil => intro i; simp [gvp]
  | cons c cs ih =>
    intro i
    by_cases hv : c.visible
    · cases i with
      | zero => simp [gvp, hv]
      | succ n =>
        have hg : gvp (c :: cs) (n + 1) = 1 + gvp cs n := by simp [gvp, hv]
        rw [hg, List.length_cons]
        have := ih n
        omega
    · have hg : gvp (c :: cs) i = 1 + gvp cs i := by simp [gvp, hv]
      rw [hg, List.length_cons]
      have := ih i
      omega

theorem countVisible_take_gvp :
    ∀ (l : List CharRecord) (i : Nat),
      countVisible (l.take (gvp l i)) = min i (countVisible l) := by
  intro l
  induction l with
  | nil => intro i; simp [gvp, countVisible]
  | cons c cs ih =>
    intro i
    by_cases hv : c.visible
    · match i with
      | 0 => simp [gvp, hv, countVisible]
      | i + 1 =>
        have hg : gvp (c :: cs) (i + 1) = 1 + gvp cs i := by simp [gvp, hv]
        rw [hg, Nat.add_comm 1 (gvp cs i), List.take_succ_cons,
          countVisible_cons, countVisible_cons, ih i, if_pos hv]
        omega
    · have hg : gvp (c :: cs) i = 1 + gvp cs i := by simp [gvp, hv]
      rw [hg, Nat.add_comm 1 (gvp cs i), List.take_succ_cons,
        countVisible_cons, countVisible_cons, ih i, if_neg hv]
      omega

theorem gvp_eq_length_of_countVisible_le :
    ∀ (l : List CharRecord) (i : Nat), countVisible l ≤ i → gvp l i = l.length := by
  intro l
  induction l with
  | nil => intro i _; simp [gvp]
  | cons c cs ih =>
    intro i h
    rw [countVisible_cons] at h
    by_cases hv : c.visible
    · rw [if_pos hv] at h
      match i with
      | 0 => omega
      | i + 1 =>
        have : gvp (c :: cs) (i + 1) = 1 + gvp cs i := by simp [gvp, hv]
        rw [this, ih i (by omega)]
        simp [Nat.add_comm]
    · rw [if_neg hv] at h
      have : gvp (c :: cs) i = 1 + gvp cs i := by simp [gvp, hv]
      rw [this, ih i (by omega)]
      simp [Nat.add_comm]

/-- C9 (confirmed).  Local insert position postcondition: `localInsert`
splices a fresh visible record carrying the given value at the internal
index `gvp characters position`, and the number of visible records in
front of it — its visible index after the insertion — equals `position`
truncated to `[0, visible_len]`; in particular a position beyond the
visible length lands at the end. -/
theorem localInsert_visible_index (s : CRDT) (pos : Nat) (v : Char) :
    ∃ c : CharRecord, c.value = v ∧ c.visible = true ∧
      (localInsert s pos v).2.characters =
        s.characters.take (gvp s.characters pos) ++
          c :: s.characters.drop (gvp s.characters pos) ∧
      countVisible (s.characters.take (gvp s.characters pos)) =
        min pos (countVisible s.characters) :=
  ⟨_, rfl, rfl, rfl, countVisible_take_gvp s.characters pos⟩

/-- C6 counterexample: deleting at position 0 in a fresh (empty) replica
returns the NoOp result `none`, yet the local clock component has been
incremented — contradicting the claim that a NoOp delete leaves the local
clock component unincremented. -/
theorem localDelete_noop_increments_clock :
    (localDelete (initCRDT "s") 0).1 = none ∧
    getC ((localDelete (initCRDT "s") 0).2.vectorClock) "s" =
      getC ((initCRDT "s").vectorClock) "s" + 1 := by decide

/-- C6 (amended).  NoOp delete: for a position at or beyond the visible
length, `localDelete` returns `none` with no operation emitted and the
document, counter and history unchanged — but the local clock component
IS incremented (the increment happens before the bounds check).  The
already-tombstone case of the claim cannot arise, since position
resolution only ever lands on a visible record. -/
theorem localDelete_noop (s : CRDT) (pos : Nat) (h : countVisible s.characters ≤ pos) :
    (localDelete s pos).1 = none ∧
    (localDelete s pos).2 = { s with vectorClock := increment s.vectorClock s.siteId } := by
  have hk : gvp s.characters pos = s.characters.length :=
    gvp_eq_length_of_countVisible_le s.characters pos h
  have hnone : s.characters[gvp s.characters pos]? = none := by
    rw [hk]
    exact List.getElem?_eq_none (Nat.le_refl _)
  unfold localDelete
  simp only [hnone]
  exact ⟨trivial, trivial⟩

/-- Witness for C6: the amended NoOp-delete theorem applied to a fresh
replica at position 0. -/
theorem localDelete_noop_witness :
    countVisible (initCRDT "s").characters ≤ 0 ∧
    ((localDelete (initCRDT "s") 0).1 = none ∧
     (localDelete (initCRDT "s") 0).2 =
       { initCRDT "s" with
           vectorClock := increment (initCRDT "s").vectorClock (initCRDT "s").siteId }) :=
  ⟨by decide, localDelete_noop (initCRDT "s") 0 (by decide)⟩

/-- C2 (code bug).  Evaluation of the code at the failing inputs: two local
inserts at position 0 on a fresh replica leave the sequence `[b, a]`
although `a` precedes `b` in the total order (`localInsert` splices at the
visible position, not at the ordered position); and `garbageCollect`
regroups a sorted `[tombstone a, visible b]` into `[b, a]`, out of order.
Both contradict the documented structural sortedness invariant. -/
theorem sortedness_invariant_violated :
    ((((localInsert ((localInsert (initCRDT "s") 0 'a').2) 0 'b').2).characters =
        [⟨'b', "s-1", "s", [("s", 2)], true⟩, ⟨'a', "s-0", "s", [("s", 1)], true⟩] ∧
      compareCharacters ⟨'a', "s-0", "s", [("s", 1)], true⟩
          ⟨'b', "s-1", "s", [("s", 2)], true⟩ < 0) ∧
     ((garbageCollect
          { siteId := "s", vectorClock := [("s", 2)]
            characters := [⟨'a', "s-0", "s", [("s", 1)], false⟩,
                           ⟨'b', "s-1", "s", [("s", 2)], true⟩]
            counter := 2, operationHistory := [] } 1000).characters =
        [⟨'b', "s-1", "s", [("s", 2)], true⟩, ⟨'a', "s-0", "s", [("s", 1)], false⟩] ∧
      compareCharacters ⟨'a', "s-0", "s", [("s", 1)], false⟩
          ⟨'b', "s-1", "s", [("s", 2)], true⟩ < 0)) := by decide

/-- C3 counterexample: two records with pointwise-equal origin clocks and
the same site, one with counter 9 (id "s-9") and one with counter 10
(id "s-10").  Numeric comparison of the counters would order the first
record strictly below the second, but the code compares the full id
strings lexicographically and returns 1: counter 9 sorts AFTER counter
10. -/
theorem compareCharacters_counter_not_numeric :
    compareCharacters ⟨'a', "s-9", "s", [("s", 1)], true⟩
        ⟨'b', "s-10", "s", [("s", 1)], true⟩ = 1 ∧
    clockCmp [("s", 1)] [("s", 1)] = 0 ∧ (9 : Nat) < 10 := by decide

/-- C5 counterexample: a Delete whose target Insert has not arrived is NOT
buffered — applying the Delete of record "B-0" before its Insert leaves
the record visible, whereas the reverse order leaves a tombstone, so the
two orders produce different final states. -/
theorem remoteDelete_before_insert_not_buffered :
    (remoteInsert (remoteDelete (initCRDT "A") [("B", 2)] "B-0")
        [("B", 1)] ⟨'x', "B-0", "B", [("B", 1)], true⟩).characters =
      [⟨'x', "B-0", "B", [("B", 1)], true⟩] ∧
    (remoteDelete (remoteInsert (initCRDT "A") [("B", 1)] ⟨'x', "B-0", "B", [("B", 1)], true⟩)
        [("B", 2)] "B-0").characters =
      [⟨'x', "B-0", "B", [("B", 1)], false⟩] := by decide

/-- Helper: tombstoning an id that no record carries changes nothing. -/
theorem setVisibleFalseFirst_of_no_match :
    ∀ (l : List CharRecord) (tid : String), (∀ c ∈ l, c.id ≠ tid) →
      setVisibleFalseFirst l tid = l := by
  intro l tid h
  induction l with
  | nil => rfl
  | cons c cs ih =>
    simp only [setVisibleFalseFirst]
    rw [if_neg (h c (List.mem_cons_self c cs)),
      ih (fun x hx => h x (List.mem_cons_of_mem c hx))]

/-- C5 (amended).  Unknown-target deletes are silently dropped, not
buffered: when `remoteDelete` is given a target id carried by no record in
the document, the character sequence is left unchanged (only the clocks
merge), and nothing is retried on later inserts — so a Delete applied
before its target Insert leaves the record visible, unlike the reverse
order. -/
theorem remoteDelete_unknown_target_dropped (s : CRDT) (k : Clock) (tid : String)
    (h : ∀ c ∈ s.characters, c.id ≠ tid) :
    (remoteDelete s k tid).characters = s.characters :=
  setVisibleFalseFirst_of_no_match s.characters tid h

/-- Witness for C5: deleting the unknown id "Z" in a fresh replica leaves
the (empty) character sequence unchanged. -/
theorem remoteDelete_unknown_target_dropped_witness :
    (∀ c ∈ (initCRDT "A").characters, c.id ≠ "Z") ∧
    (remoteDelete (initCRDT "A") [("B", 1)] "Z").characters = (initCRDT "A").characters :=
  ⟨by decide, remoteDelete_unknown_target_dropped (initCRDT "A") [("B", 1)] "Z" (by decide)⟩

/-- C8 counterexample: the transformed cursor position is not bounded by
the current visible length — a fresh replica has visible length 0, yet a
reported position 5 with an empty clock transforms to 5. -/
theorem transformCursorPosition_exceeds_visible_len :
    transformCursorPosition (initCRDT "A") 5 [] = 5 ∧
    countVisible (initCRDT "A").characters = 0 := by decide

/-- Helper: a left fold whose step fixes every element failing `p` equals
the fold over the `p`-filtered list. -/
theorem foldl_eq_foldl_filter {α β : Type} (f : β → α → β) (p : α → Bool)
    (h : ∀ b a, p a = false → f b a = b) :
    ∀ (l : List α) (b : β), l.foldl f b = (l.filter p).foldl f b := by
  intro l
  induction l with
  | nil => intro b; rfl
  | cons a as ih =>
    intro b
    cases hp : p a with
    | false => simp only [List.foldl_cons, List.filter_cons, hp, h b a hp]; exact ih b
    | true => simp only [List.foldl_cons, List.filter_cons, hp]; exact ih (f b a)

/-- C8 (amended).  The transformed cursor position is always `≥ 0` (it is
NOT bounded by the visible length), and operations whose clock is not
strictly After the reported clock — concurrent, equal or earlier ones —
never move it: the transform equals the transform over the history
filtered to the strictly-After operations only. -/
theorem transformCursorPosition_nonneg_concurrent_skip (s : CRDT) (pos : Int) (rc : Clock) :
    0 ≤ transformCursorPosition s pos rc ∧
    transformCursorPosition s pos rc =
      transformCursorPosition
        { s with operationHistory := (s.operationHistory.filter
            (fun op => compareTo (assignClock [(s.siteId, 0)] op.vectorClock) rc = some 1)) }
        pos rc := by
  constructor
  · exact le_max_left 0 _
  · unfold transformCursorPosition
    have := foldl_eq_foldl_filter
      (fun (t : Int) (op : Operation) =>
        if compareTo (assignClock [(s.siteId, 0)] op.vectorClock) rc = some 1 then
          match op.type with
          | .insert => if (op.position : Int) ≤ t then t + 1 else t
          | .delete => if (op.position : Int) < t then t - 1 else t
        else t)
      (fun op => compareTo (assignClock [(s.siteId, 0)] op.vectorClock) rc = some 1)
      (by
        intro b a hp
        simp only [decide_eq_false_iff_not] at hp
        simp only [if_neg hp])
      s.operationHistory pos
    rw [this]

/-! Helper lemmas for message handling. -/

theorem applyRemote_siteId (s : CRDT) (o : Op) : (applyRemote s o).siteId = s.siteId := by
  cases o <;> rfl

/-- The freshly recorded message id survives the dedup-set pruning (it is
the newest entry; pruning removes the oldest 500 of more than 1000). -/
theorem mem_received_after (l : List String) (x : String) :
    x ∈ (if (l ++ [x]).length > 1000 then (l ++ [x]).drop 500 else l ++ [x]) := by
  split
  · next h =>
    have hl : 500 ≤ l.length := by
      simp only [List.length_append, List.length_singleton] at h
      omega
    rw [List.drop_append_eq_append_drop]
    exact List.mem_append_right _ (by
      have : 500 - l.length = 0 := by omega
      rw [this]
      exact List.mem_cons_self x [])
  · exact List.mem_append_right _ (List.mem_cons_self x [])

/-- A record with the inserted id is present after `remoteInsert`. -/
theorem remoteInsert_id_present (s : CRDT) (k : Clock) (r : CharRecord) :
    (remoteInsert s k r).characters.any (fun x => x.id = r.id) = true := by
  unfold remoteInsert
  simp only []
  split
  · next h => exact h
  · refine List.any_eq_true.mpr ⟨r, ?_, by simp⟩
    exact List.mem_append_right _ (List.mem_cons_self r _)

/-- C7 (confirmed).  Duplicate delivery has no observable effect on the
Document: handling the same message twice through `handleMessage` leaves
the character sequence of the second result equal to that of the first
(the id is in the dedup set, even across pruning), and applying the same
remote insert twice through `remoteInsert` leaves the sequence equal to a
single application (the duplicate id is detected). -/
theorem duplicate_delivery_idempotent :
    (∀ (st : Sync) (m : Message),
      (handleMessage (handleMessage st m).1 m).1.crdt.characters =
        (handleMessage st m).1.crdt.characters) ∧
    (∀ (s : CRDT) (k : Clock) (r : CharRecord),
      (remoteInsert (remoteInsert s k r) k r).characters =
        (remoteInsert s k r).characters) := by
  constructor
  · intro st m
    by_cases h1 : m.siteId = st.crdt.siteId
    · simp [handleMessage, h1]
    · by_cases h2 : m.messageId ∈ st.received
      · simp [handleMessage, h1, h2]
      · have hmem : m.messageId ∈
            (if 1000 < st.received.length + 1 then
              List.drop 500 (st.received ++ [m.messageId])
            else st.received ++ [m.messageId]) := by
          simpa using mem_received_after st.received m.messageId
        cases hk : m.kind with
        | operation o =>
          by_cases h3 : compareTo st.crdt.vectorClock o.clock = none ∨
              compareTo st.crdt.vectorClock o.clock = some (-1)
          · simp [handleMessage, h1, h2, hk, h3, applyRemote_siteId, hmem]
          · simp [handleMessage, h1, h2, hk, h3, hmem]
        | ack aid => simp [handleMessage, h1, h2, hk, hmem]
  · intro s k r
    have hpres := remoteInsert_id_present s k r
    conv_lhs => rw [remoteInsert]
    simp only [hpres, if_true]

/-- C4 counterexample: a message from site "B" (≠ local site "A") with a
fresh message id carries an insert whose vector clock is empty; the local
clock `{A: 0}` compares Equal (`some 0`) to it, so `handleMessage` records
the id but neither applies the operation nor emits an Ack — the clock
comparison DOES withhold application and acknowledgement. -/
theorem handleMessage_withholds_on_clock :
    (handleMessage ⟨initCRDT "A", [], []⟩
        ⟨"B", "m1", .operation (.ins [] ⟨'x', "B-0", "B", [], true⟩)⟩).2 = [] ∧
    (handleMessage ⟨initCRDT "A", [], []⟩
        ⟨"B", "m1", .operation (.ins [] ⟨'x', "B-0", "B", [], true⟩)⟩).1.crdt.characters = [] ∧
    (handleMessage ⟨initCRDT "A", [], []⟩
        ⟨"B", "m1", .operation (.ins [] ⟨'x', "B-0", "B", [], true⟩)⟩).1.received = ["m1"] ∧
    ("B" : String) ≠ (initCRDT "A").siteId ∧
    compareTo (initCRDT "A").vectorClock [] = some 0 := by decide

/-- C4 (amended).  Inbound apply-and-ack holds only under the clock gate:
for an operation message from a foreign site with an unseen message id,
`handleMessage` applies the operation and emits the matching Ack exactly
when the local clock compares Concurrent (`null`) or Before (`-1`) to the
operation's clock; when the comparison is Equal or After the message id is
still recorded but the operation is dropped without an Ack. -/
theorem handleMessage_applies_under_gate (st : Sync) (m : Message) (o : Op)
    (hk : m.kind = .operation o)
    (hs : m.siteId ≠ st.crdt.siteId)
    (hd : m.messageId ∉ st.received)
    (hc : compareTo st.crdt.vectorClock o.clock = none ∨
          compareTo st.crdt.vectorClock o.clock = some (-1)) :
    (handleMessage st m).1.crdt = applyRemote st.crdt o ∧
    (handleMessage st m).2 = [(m.messageId, m.siteId)] := by
  unfold handleMessage
  rw [if_neg hs, if_neg hd, hk]
  simp only [if_pos hc]
  exact ⟨trivial, trivial⟩

/-- Witness for C4: a message from "B" carrying an insert with clock
`{B: 1}` against local clock `{A: 0}` (comparison Before) is applied and
acknowledged. -/
theorem handleMessage_applies_under_gate_witness :
    ((Message.mk "B" "m1" (.operation (.ins [("B", 1)] ⟨'x', "B-0", "B", [("B", 1)], true⟩))).kind =
        .operation (.ins [("B", 1)] ⟨'x', "B-0", "B", [("B", 1)], true⟩) ∧
     ("B" : String) ≠ (Sync.mk (initCRDT "A") [] []).crdt.siteId ∧
     ("m1" : String) ∉ (Sync.mk (initCRDT "A") [] []).received ∧
     (compareTo (Sync.mk (initCRDT "A") [] []).crdt.vectorClock
          (Op.ins [("B", 1)] ⟨'x', "B-0", "B", [("B", 1)], true⟩).clock = none ∨
      compareTo (Sync.mk (initCRDT "A") [] []).crdt.vectorClock
          (Op.ins [("B", 1)] ⟨'x', "B-0", "B", [("B", 1)], true⟩).clock = some (-1))) ∧
    ((handleMessage (Sync.mk (initCRDT "A") [] [])
        (Message.mk "B" "m1"
          (.operation (.ins [("B", 1)] ⟨'x', "B-0", "B", [("B", 1)], true⟩)))).1.crdt =
      applyRemote (initCRDT "A") (.ins [("B", 1)] ⟨'x', "B-0", "B", [("B", 1)], true⟩) ∧
     (handleMessage (Sync.mk (initCRDT "A") [] [])
        (Message.mk "B" "m1"
          (.operation (.ins [("B", 1)] ⟨'x', "B-0", "B", [("B", 1)], true⟩)))).2 =
      [("m1", "B")]) :=
  ⟨⟨rfl, by decide, by decide, by decide⟩,
    handleMessage_applies_under_gate _ _ _ rfl (by decide) (by decide) (by decide)⟩

/-! Helper lemmas for the vector clock comparator. -/

theorem getC_eq_zero_of_not_mem (c : Clock) (s : String) (h : s ∉ c.map Prod.fst) :
    getC c s = 0 := by
  unfold getC
  rw [List.find?_eq_none.mpr]
  · rfl
  · intro p hp
    simp only [beq_iff_eq]
    intro hps
    exact h (List.mem_map.mpr ⟨p, hp, hps⟩)

theorem mem_sites_of_getC_pos_right (a b : Clock) (s : String) (h : 0 < getC b s) :
    s ∈ sites a b := by
  refine List.mem_append_right _ ?_
  by_contra hnb
  rw [getC_eq_zero_of_not_mem b s hnb] at h
  omega

theorem mem_sites_of_getC_pos_left (a b : Clock) (s : String) (h : 0 < getC a s) :
    s ∈ sites a b := by
  refine List.mem_append_left _ ?_
  by_contra hna
  rw [getC_eq_zero_of_not_mem a s hna] at h
  omega

theorem anyLess_iff (a b : Clock) :
    ((sites a b).any fun s => decide (getC a s < getC b s)) = true ↔
      ∃ s, getC a s < getC b s := by
  rw [List.any_eq_true]
  constructor
  · rintro ⟨s, _, hs⟩
    exact ⟨s, of_decide_eq_true hs⟩
  · rintro ⟨s, hs⟩
    exact ⟨s, mem_sites_of_getC_pos_right a b s (by omega), decide_eq_true hs⟩

theorem anyGreater_iff (a b : Clock) :
    ((sites a b).any fun s => decide (getC b s < getC a s)) = true ↔
      ∃ s, getC b s < getC a s := by
  rw [List.any_eq_true]
  constructor
  · rintro ⟨s, _, hs⟩
    exact ⟨s, of_decide_eq_true hs⟩
  · rintro ⟨s, hs⟩
    exact ⟨s, mem_sites_of_getC_pos_left a b s (by omega), decide_eq_true hs⟩

theorem bool_eq_false_of_not {b : Bool} {P : Prop} (h : b = true ↔ P) (hp : ¬ P) :
    b = false := by
  cases hb : b
  · rfl
  · exact absurd (h.mp hb) hp

/-- Outcome of `compareTo` in the concurrent case. -/
theorem compareTo_eq_none_of (a b : Clock) (hl : ∃ s, getC a s < getC b s)
    (hg : ∃ s, getC b s < getC a s) : compareTo a b = none := by
  unfold compareTo
  rw [(anyLess_iff a b).mpr hl, (anyGreater_iff a b).mpr hg]
  rfl

/-- Outcome of `compareTo` in the strictly-before case. -/
theorem compareTo_eq_before_of (a b : Clock) (hl : ∃ s, getC a s < getC b s)
    (hg : ¬ ∃ s, getC b s < getC a s) : compareTo a b = some (-1) := by
  unfold compareTo
  rw [(anyLess_iff a b).mpr hl, bool_eq_false_of_not (anyGreater_iff a b) hg]
  rfl

/-- Outcome of `compareTo` in the strictly-after case. -/
theorem compareTo_eq_after_of (a b : Clock) (hl : ¬ ∃ s, getC a s < getC b s)
    (hg : ∃ s, getC b s < getC a s) : compareTo a b = some 1 := by
  unfold compareTo
  rw [bool_eq_false_of_not (anyLess_iff a b) hl, (anyGreater_iff a b).mpr hg]
  rfl

/-- Outcome of `compareTo` in the equal case. -/
theorem compareTo_eq_equal_of (a b : Clock) (hl : ¬ ∃ s, getC a s < getC b s)
    (hg : ¬ ∃ s, getC b s < getC a s) : compareTo a b = some 0 := by
  unfold compareTo
  rw [bool_eq_false_of_not (anyLess_iff a b) hl, bool_eq_false_of_not (anyGreater_iff a b) hg]
  rfl

/-- C10 (confirmed).  `VectorClock.compareTo` is a sound causality
comparator: it returns Equal (`some 0`) iff the clocks agree on every
component (missing components reading 0), Before (`some (-1)`) iff the
first is componentwise at most the second and they are not equal, After
(`some 1`) symmetrically, and Concurrent (`none`) iff each clock exceeds
the other at some component; moreover Before of `(a, b)` coincides with
After of `(b, a)`. -/
theorem compareTo_sound (a b : Clock) :
    (compareTo a b = some 0 ↔ ∀ s, getC a s = getC b s) ∧
    (compareTo a b = some (-1) ↔
      (∀ s, getC a s ≤ getC b s) ∧ ¬ (∀ s, getC a s = getC b s)) ∧
    (compareTo a b = some 1 ↔
      (∀ s, getC b s ≤ getC a s) ∧ ¬ (∀ s, getC a s = getC b s)) ∧
    (compareTo a b = none ↔
      ((∃ s, getC a s < getC b s) ∧ ∃ s, getC b s < getC a s)) ∧
    (compareTo a b = some (-1) ↔ compareTo b a = some 1) := by
  by_cases hl : ∃ s, getC a s < getC b s <;> by_cases hg : ∃ s, getC b s < getC a s
  · -- concurrent
    rw [compareTo_eq_none_of a b hl hg, compareTo_eq_none_of b a hg hl]
    refine ⟨?_, ?_, ?_, ?_, ?_⟩
    · constructor
      · intro h; exact Option.noConfusion h
      · intro h
        obtain ⟨s1, hs1⟩ := hl
        have := h s1
        omega
    · constructor
      · intro h; exact Option.noConfusion h
      · intro h
        obtain ⟨s2, hs2⟩ := hg
        have := h.1 s2
        omega
    · constructor
      · intro h; exact Option.noConfusion h
      · intro h
        obtain ⟨s1, hs1⟩ := hl
        have := h.1 s1
        omega
    · exact ⟨fun _ => ⟨hl, hg⟩, fun _ => rfl⟩
    · exact ⟨fun h => Option.noConfusion h, fun h => Option.noConfusion h⟩
  · -- strictly before
    rw [compareTo_eq_before_of a b hl hg, compareTo_eq_after_of b a hg hl]
    push_neg at hg
    refine ⟨?_, ?_, ?_, ?_, ?_⟩
    · constructor
      · intro h; simp at h
      · intro h
        obtain ⟨s1, hs1⟩ := hl
        have := h s1
        omega
    · refine ⟨fun _ => ⟨fun s => hg s, fun h => ?_⟩, fun _ => rfl⟩
      obtain ⟨s1, hs1⟩ := hl
      have := h s1
      omega
    · constructor
      · intro h; simp at h
      · intro h
        obtain ⟨s1, hs1⟩ := hl
        have := h.1 s1
        omega
    · constructor
      · intro h; exact Option.noConfusion h
      · intro h
        obtain ⟨s2, hs2⟩ := h.2
        have := hg s2
        omega
    · exact ⟨fun _ => rfl, fun _ => rfl⟩
  · -- strictly after
    rw [compareTo_eq_after_of a b hl hg, compareTo_eq_before_of b a hg hl]
    push_neg at hl
    refine ⟨?_, ?_, ?_, ?_, ?_⟩
    · constructor
      · intro h; simp at h
      · intro h
        obtain ⟨s2, hs2⟩ := hg
        have := h s2
        omega
    · constructor
      · intro h; simp at h
      · intro h
        obtain ⟨s2, hs2⟩ := hg
        have := h.1 s2
        omega
    · refine ⟨fun _ => ⟨fun s => hl s, fun h => ?_⟩, fun _ => rfl⟩
      obtain ⟨s2, hs2⟩ := hg
      have := h s2
      omega
    · constructor
      · intro h; exact Option.noConfusion h
      · intro h
        obtain ⟨s1, hs1⟩ := h.1
        have := hl s1
        omega
    · exact ⟨fun h => by simp at h, fun h => by simp at h⟩
  · -- equal
    rw [compareTo_eq_equal_of a b hl hg, compareTo_eq_equal_of b a hg hl]
    push_neg at hl hg
    have heq : ∀ s, getC a s = getC b s := fun s => le_antisymm (hg s) (hl s)
    refine ⟨⟨fun _ => heq, fun _ => rfl⟩, ?_, ?_, ?_, ?_⟩
    · constructor
      · intro h; simp at h
      · intro h; exact absurd heq h.2
    · constructor
      · intro h; simp at h
      · intro h; exact absurd heq h.2
    · constructor
      · intro h; exact Option.noConfusion h
      · intro h
        obtain ⟨s1, hs1⟩ := h.1
        have := heq s1
        omega
    · exact ⟨fun h => by simp at h, fun h => by simp at h⟩

/-! Order theory of the string comparator. -/

theorem lcmp_cons_neg_iff (a b : Char) (as bs : List Char) :
    lcmp (a :: as) (b :: bs) < 0 ↔ a < b ∨ (a = b ∧ lcmp as bs < 0) := by
  rcases lt_trichotomy a b with h | h | h
  · simp [lcmp, h]
  · subst h
    simp [lcmp, lt_irrefl]
  · simp [lcmp, h, lt_asymm h, ne_of_gt h]

theorem lcmp_eq_zero_iff : ∀ (as bs : List Char), lcmp as bs = 0 ↔ as = bs := by
  intro as
  induction as with
  | nil =>
    intro bs
    cases bs <;> simp [lcmp]
  | cons a as ih =>
    intro bs
    cases bs with
    | nil => simp [lcmp]
    | cons b bs =>
      rcases lt_trichotomy a b with h | h | h
      · simp [lcmp, h, ne_of_lt h]
      · subst h
        simp [lcmp, lt_irrefl, ih bs]
      · simp [lcmp, h, lt_asymm h, ne_of_gt h]

theorem lcmp_antisymm : ∀ (as bs : List Char), lcmp as bs = -(lcmp bs as) := by
  intro as
  induction as with
  | nil =>
    intro bs
    cases bs <;> simp [lcmp]
  | cons a as ih =>
    intro bs
    cases bs with
    | nil => simp [lcmp]
    | cons b bs =>
      rcases lt_trichotomy a b with h | h | h
      · simp [lcmp, h, lt_asymm h]
      · subst h
        simp [lcmp, lt_irrefl, ih bs]
      · simp [lcmp, h, lt_asymm h]

theorem lcmp_trans_neg :
    ∀ (as bs cs : List Char), lcmp as bs < 0 → lcmp bs cs < 0 → lcmp as cs < 0 := by
  intro as
  induction as with
  | nil =>
    intro bs cs h1 h2
    cases bs with
    | nil => simp [lcmp] at h1
    | cons b bs =>
      cases cs with
      | nil => simp [lcmp] at h2
      | cons c cs => simp [lcmp]
  | cons a as ih =>
    intro bs cs h1 h2
    cases bs with
    | nil => simp [lcmp] at h1
    | cons b bs =>
      cases cs with
      | nil => simp [lcmp] at h2
      | cons c cs =>
        rw [lcmp_cons_neg_iff] at h1 h2 ⊢
        rcases h1 with hab | ⟨hab, h1'⟩ <;> rcases h2 with hbc | ⟨hbc, h2'⟩
        · exact Or.inl (lt_trans hab hbc)
        · exact Or.inl (hbc ▸ hab)
        · exact Or.inl (hab ▸ hbc)
        · exact Or.inr ⟨hab.trans hbc, ih bs cs h1' h2'⟩

theorem scmp_eq_zero_iff (a b : String) : scmp a b = 0 ↔ a = b := by
  unfold scmp
  rw [lcmp_eq_zero_iff]
  exact ⟨fun h => String.ext h, fun h => h ▸ rfl⟩

theorem scmp_antisymm (a b : String) : scmp a b = -(scmp b a) := lcmp_antisymm a.data b.data

theorem strLt_irrefl (a : String) : ¬ strLt a a := by
  have h := scmp_antisymm a a
  unfold strLt
  omega

theorem strLt_asymm {a b : String} (h : strLt a b) : ¬ strLt b a := by
  unfold strLt at h ⊢
  rw [scmp_antisymm] at h
  omega

theorem strLt_trans {a b c : String} (h1 : strLt a b) (h2 : strLt b c) : strLt a c :=
  lcmp_trans_neg a.data b.data c.data h1 h2

theorem strLt_total (a b : String) : strLt a b ∨ a = b ∨ strLt b a := by
  rcases lt_trichotomy (scmp a b) 0 with h | h | h
  · exact Or.inl h
  · exact Or.inr (Or.inl ((scmp_eq_zero_iff a b).mp h))
  · refine Or.inr (Or.inr ?_)
    unfold strLt
    rw [scmp_antisymm] at h
    omega

theorem scmp_le_zero_trans {a b c : String} (h1 : scmp a b ≤ 0) (h2 : scmp b c ≤ 0) :
    scmp a c ≤ 0 := by
  rcases lt_or_eq_of_le h1 with h1 | h1
  · rcases lt_or_eq_of_le h2 with h2 | h2
    · exact le_of_lt (strLt_trans h1 h2)
    · rw [(scmp_eq_zero_iff b c).mp h2] at h1
      exact le_of_lt h1
  · rw [(scmp_eq_zero_iff a b).mp h1]
    exact h2

/-! Sorting facts for the key lists scanned by `compareCharacters`. -/

theorem insortStr_perm (x : String) : ∀ l : List String, (insortStr x l).Perm (x :: l) := by
  intro l
  induction l with
  | nil => exact List.Perm.refl _
  | cons y ys ih =>
    unfold insortStr
    split
    · exact List.Perm.refl _
    · exact (List.Perm.cons y ih).trans (List.Perm.swap x y ys)

theorem ssort_perm : ∀ l : List String, (ssort l).Perm l := by
  intro l
  induction l with
  | nil => exact List.Perm.refl _
  | cons x xs ih => exact (insortStr_perm x (ssort xs)).trans (List.Perm.cons x ih)

theorem insortStr_pairwise_le (x : String) :
    ∀ l : List String, l.Pairwise (fun u v => scmp u v ≤ 0) →
      (insortStr x l).Pairwise (fun u v => scmp u v ≤ 0) := by
  intro l
  induction l with
  | nil => intro _; simp [insortStr]
  | cons y ys ih =>
    intro hp
    unfold insortStr
    split
    · next hxy =>
      refine List.Pairwise.cons ?_ hp
      intro z hz
      rcases List.mem_cons.mp hz with hz | hz
      · exact hz ▸ hxy
      · exact scmp_le_zero_trans hxy (List.rel_of_pairwise_cons hp hz)
    · next hxy =>
      push_neg at hxy
      have hyx : scmp y x ≤ 0 := by
        have := scmp_antisymm x y
        omega
      refine List.Pairwise.cons ?_ (ih (List.Pairwise.sublist (List.sublist_cons_self y ys) hp))
      intro z hz
      rcases List.mem_cons.mp ((insortStr_perm x ys).mem_iff.mp hz) with hz | hz
      · exact hz ▸ hyx
      · exact List.rel_of_pairwise_cons hp hz

theorem ssort_pairwise_le :
    ∀ l : List String, (ssort l).Pairwise (fun u v => scmp u v ≤ 0) := by
  intro l
  induction l with
  | nil => simp [ssort]
  | cons x xs ih => exact insortStr_pairwise_le x (ssort xs) ih

theorem pairwise_strLt_of_le_nodup {l : List String}
    (hle : l.Pairwise (fun u v => scmp u v ≤ 0)) (hnd : l.Nodup) :
    l.Pairwise strLt := by
  have := List.Pairwise.and hle hnd
  refine this.imp ?_
  rintro u v ⟨h1, h2⟩
  have h3 : scmp u v ≠ 0 := fun h => h2 ((scmp_eq_zero_iff u v).mp h)
  unfold strLt
  omega

theorem pairwise_strLt_sortedSites (a b : Clock) : (sortedSites a b).Pairwise strLt := by
  unfold sortedSites
  refine pairwise_strLt_of_le_nodup (ssort_pairwise_le _) ?_
  exact ((ssort_perm _).nodup_iff).mpr (List.nodup_dedup _)

theorem mem_sortedSites_of_diff (a b : Clock) (s : String) (h : getC a s ≠ getC b s) :
    s ∈ sortedSites a b := by
  unfold sortedSites
  rw [(ssort_perm _).mem_iff, List.mem_dedup]
  by_cases ha : s ∈ a.map Prod.fst
  · exact List.mem_append_left _ ha
  · refine List.mem_append_right _ ?_
    by_contra hb
    rw [getC_eq_zero_of_not_mem a s ha, getC_eq_zero_of_not_mem b s hb] at h
    exact h rfl

/-! Characterization of the clock comparison stage. -/

/-- Pointwise equality of two clocks (missing components read 0). -/
def clockEqF (a b : Clock) : Prop := ∀ s, getC a s = getC b s

/-- First-difference order on clocks: the least site key (in code-point
order) at which the clocks differ carries a smaller count on the left. -/
def clockLtF (a b : Clock) : Prop :=
  ∃ s, getC a s < getC b s ∧ ∀ t, strLt t s → getC a t = getC b t

theorem clockCmpKeys_antisymm (a b : Clock) :
    ∀ ks : List String, clockCmpKeys a b ks = -(clockCmpKeys b a ks) := by
  intro ks
  induction ks with
  | nil => simp [clockCmpKeys]
  | cons s rest ih =>
    by_cases h : getC a s = getC b s
    · simp [clockCmpKeys, h, ih]
    · simp only [clockCmpKeys, if_pos h, if_pos (Ne.symm h)]
      omega

theorem clockCmpKeys_zero_iff (a b : Clock) :
    ∀ ks : List String, (∀ s, getC a s ≠ getC b s → s ∈ ks) →
      (clockCmpKeys a b ks = 0 ↔ clockEqF a b) := by
  intro ks
  induction ks with
  | nil =>
    intro hcov
    have heq : clockEqF a b := by
      intro s
      by_contra h
      exact absurd (hcov s h) (List.not_mem_nil s)
    exact iff_of_true rfl heq
  | cons s rest ih =>
    intro hcov
    by_cases h : getC a s = getC b s
    · have hcov' : ∀ t, getC a t ≠ getC b t → t ∈ rest := by
        intro t ht
        rcases List.mem_cons.mp (hcov t ht) with h' | h'
        · exact absurd (h' ▸ h) ht
        · exact h'
      simp only [clockCmpKeys, if_neg (not_not_intro h)]
      exact ih hcov'
    · simp only [clockCmpKeys, if_pos h]
      constructor
      · intro hz
        exfalso
        omega
      · intro heq
        exact absurd (heq s) h

theorem clockCmpKeys_neg_iff (a b : Clock) :
    ∀ ks : List String, ks.Pairwise strLt → (∀ s, getC a s ≠ getC b s → s ∈ ks) →
      (clockCmpKeys a b ks < 0 ↔ clockLtF a b) := by
  intro ks
  induction ks with
  | nil =>
    intro _ hcov
    simp only [clockCmpKeys]
    constructor
    · intro h; omega
    · rintro ⟨s, hs, -⟩
      exact absurd (hcov s (by omega)) (List.not_mem_nil s)
  | cons s rest ih =>
    intro hp hcov
    by_cases h : getC a s = getC b s
    · have hcov' : ∀ t, getC a t ≠ getC b t → t ∈ rest := by
        intro t ht
        rcases List.mem_cons.mp (hcov t ht) with h' | h'
        · exact absurd (h' ▸ h) ht
        · exact h'
      simp only [clockCmpKeys, if_neg (not_not_intro h)]
      exact ih (List.Pairwise.sublist (List.sublist_cons_self s rest) hp) hcov'
    · simp only [clockCmpKeys, if_pos h]
      constructor
      · intro hlt
        refine ⟨s, by omega, ?_⟩
        intro t hts
        by_contra ht
        rcases List.mem_cons.mp (hcov t ht) with h' | h'
        · exact strLt_irrefl s (h' ▸ hts)
        · exact strLt_asymm hts (List.rel_of_pairwise_cons hp h')
      · rintro ⟨u, hu, hubelow⟩
        rcases strLt_total u s with hus | hus | hus
        · exfalso
          rcases List.mem_cons.mp (hcov u (by omega)) with h' | h'
          · exact strLt_irrefl s (h' ▸ hus)
          · exact strLt_asymm hus (List.rel_of_pairwise_cons hp h')
        · subst hus
          omega
        · have := hubelow s hus
          exact absurd this h

theorem clockCmp_zero_iff (a b : Clock) : clockCmp a b = 0 ↔ clockEqF a b :=
  clockCmpKeys_zero_iff a b (sortedSites a b) (mem_sortedSites_of_diff a b)

theorem clockCmp_neg_iff (a b : Clock) : clockCmp a b < 0 ↔ clockLtF a b :=
  clockCmpKeys_neg_iff a b (sortedSites a b) (pairwise_strLt_sortedSites a b)
    (mem_sortedSites_of_diff a b)

theorem clockCmp_pos_iff (a b : Clock) : 0 < clockCmp a b ↔ clockLtF b a := by
  have hanti := clockCmpKeys_antisymm a b (sortedSites a b)
  have hneg := clockCmpKeys_neg_iff b a (sortedSites a b) (pairwise_strLt_sortedSites a b)
    (fun s h => mem_sortedSites_of_diff a b s (Ne.symm h))
  unfold clockCmp
  rw [hanti]
  constructor
  · intro h
    exact hneg.mp (by omega)
  · intro h
    have := hneg.mpr h
    omega

/-! Characterization of the full record comparator. -/

/-- The record order the code implements, stated spec-style: first the
first-difference order on origin clocks over ascending site keys, then the
site ids lexicographically, then the FULL id strings lexicographically
(this last stage is where the code deviates from the spec's numeric
counter comparison). -/
def specCharLt (c1 c2 : CharRecord) : Prop :=
  clockLtF c1.vectorClock c2.vectorClock ∨
    (clockEqF c1.vectorClock c2.vectorClock ∧
      (strLt c1.siteId c2.siteId ∨ (c1.siteId = c2.siteId ∧ strLt c1.id c2.id)))

theorem not_clockLtF_of_eq {a b : Clock} (h : clockEqF a b) : ¬ clockLtF a b := by
  rintro ⟨s, hs, -⟩
  have := h s
  omega

theorem compareCharacters_neg_iff (c1 c2 : CharRecord) :
    compareCharacters c1 c2 < 0 ↔ specCharLt c1 c2 := by
  unfold compareCharacters
  by_cases hcl : clockCmp c1.vectorClock c2.vectorClock = 0
  · have heq := (clockCmp_zero_iff _ _).mp hcl
    rw [if_neg (not_not_intro hcl)]
    by_cases hsite : c1.siteId = c2.siteId
    · rw [if_neg (not_not_intro hsite)]
      constructor
      · intro h
        exact Or.inr ⟨heq, Or.inr ⟨hsite, h⟩⟩
      · rintro (h | ⟨-, h | ⟨-, h⟩⟩)
        · exact absurd h (not_clockLtF_of_eq heq)
        · exact absurd (hsite ▸ h) (strLt_irrefl _)
        · exact h
    · rw [if_pos hsite]
      constructor
      · intro h
        exact Or.inr ⟨heq, Or.inl h⟩
      · rintro (h | ⟨-, h | ⟨h, -⟩⟩)
        · exact absurd h (not_clockLtF_of_eq heq)
        · exact h
        · exact absurd h hsite
  · rw [if_pos hcl]
    constructor
    · intro h
      exact Or.inl ((clockCmp_neg_iff _ _).mp h)
    · rintro (h | ⟨heq, -⟩)
      · exact (clockCmp_neg_iff _ _).mpr h
      · exact absurd ((clockCmp_zero_iff _ _).mpr heq) hcl

theorem compareCharacters_zero_iff (c1 c2 : CharRecord) :
    compareCharacters c1 c2 = 0 ↔
      clockEqF c1.vectorClock c2.vectorClock ∧ c1.siteId = c2.siteId ∧ c1.id = c2.id := by
  unfold compareCharacters
  by_cases hcl : clockCmp c1.vectorClock c2.vectorClock = 0
  · have heq := (clockCmp_zero_iff _ _).mp hcl
    rw [if_neg (not_not_intro hcl)]
    by_cases hsite : c1.siteId = c2.siteId
    · rw [if_neg (not_not_intro hsite)]
      rw [scmp_eq_zero_iff]
      exact ⟨fun h => ⟨heq, hsite, h⟩, fun h => h.2.2⟩
    · rw [if_pos hsite]
      constructor
      · intro h
        exact absurd ((scmp_eq_zero_iff _ _).mp h) hsite
      · rintro ⟨-, h, -⟩
        exact absurd h hsite
  · rw [if_pos hcl]
    constructor
    · intro h
      exact absurd h hcl
    · rintro ⟨h, -, -⟩
      exact absurd ((clockCmp_zero_iff _ _).mpr h) hcl

theorem clockEqF_symm {a b : Clock} (h : clockEqF a b) : clockEqF b a :=
  fun s => (h s).symm

theorem compareCharacters_pos_iff (c1 c2 : CharRecord) :
    0 < compareCharacters c1 c2 ↔ specCharLt c2 c1 := by
  unfold compareCharacters
  by_cases hcl : clockCmp c1.vectorClock c2.vectorClock = 0
  · have heq := (clockCmp_zero_iff _ _).mp hcl
    rw [if_neg (not_not_intro hcl)]
    by_cases hsite : c1.siteId = c2.siteId
    · rw [if_neg (not_not_intro hsite)]
      have hanti := scmp_antisymm c1.id c2.id
      constructor
      · intro h
        exact Or.inr ⟨clockEqF_symm heq, Or.inr ⟨hsite.symm, by unfold strLt; omega⟩⟩
      · rintro (h | ⟨-, h | ⟨-, h⟩⟩)
        · exact absurd h (not_clockLtF_of_eq (clockEqF_symm heq))
        · exact absurd (hsite ▸ h) (strLt_irrefl _)
        · unfold strLt at h
          omega
    · rw [if_pos hsite]
      have hanti := scmp_antisymm c1.siteId c2.siteId
      constructor
      · intro h
        exact Or.inr ⟨clockEqF_symm heq, Or.inl (by unfold strLt; omega)⟩
      · rintro (h | ⟨-, h | ⟨h, -⟩⟩)
        · exact absurd h (not_clockLtF_of_eq (clockEqF_symm heq))
        · unfold strLt at h
          omega
        · exact absurd h.symm hsite
  · rw [if_pos hcl]
    rw [clockCmp_pos_iff]
    constructor
    · intro h
      exact Or.inl h
    · rintro (h | ⟨heq, -⟩)
      · exact h
      · exact absurd ((clockCmp_zero_iff _ _).mpr (clockEqF_symm heq)) hcl

/-- C3 (corrected, amended form).  `compareCharacters` implements the
three-stage lexicographic order: origin clocks compared componentwise over
the union of their site keys in ascending code-point order of site id
(missing keys reading 0), deciding at the first difference; then site ids
lexicographically; then — unlike the claim's numeric counter comparison —
the FULL id strings lexicographically, so with site "s" the id "s-10"
orders before "s-9".  The sign of the result characterizes the order in
both directions, and it is zero exactly on records agreeing in clock,
site and id. -/
theorem compareCharacters_implements_lex_order (c1 c2 : CharRecord) :
    (compareCharacters c1 c2 < 0 ↔ specCharLt c1 c2) ∧
    (compareCharacters c1 c2 = 0 ↔
      clockEqF c1.vectorClock c2.vectorClock ∧ c1.siteId = c2.siteId ∧ c1.id = c2.id) ∧
    (0 < compareCharacters c1 c2 ↔ specCharLt c2 c1) :=
  ⟨compareCharacters_neg_iff c1 c2, compareCharacters_zero_iff c1 c2,
    compareCharacters_pos_iff c1 c2⟩

/-! Strict-order properties of the record comparator. -/

theorem clockLtF_asymm {a b : Clock} (h : clockLtF a b) : ¬ clockLtF b a := by
  obtain ⟨s, hs, hsb⟩ := h
  rintro ⟨u, hu, hub⟩
  rcases strLt_total s u with hsu | hsu | hsu
  · have := hub s hsu
    omega
  · subst hsu
    omega
  · have := hsb u hsu
    omega

theorem clockLtF_trans {a b c : Clock} (h1 : clockLtF a b) (h2 : clockLtF b c) :
    clockLtF a c := by
  obtain ⟨s, hs, hsb⟩ := h1
  obtain ⟨u, hu, hub⟩ := h2
  rcases strLt_total s u with hsu | hsu | hsu
  · refine ⟨s, ?_, ?_⟩
    · have := hub s hsu
      omega
    · intro t hts
      rw [hsb t hts, hub t (strLt_trans hts hsu)]
  · subst hsu
    exact ⟨s, by omega, fun t hts => (hsb t hts).trans (hub t hts)⟩
  · refine ⟨u, ?_, ?_⟩
    · have := hsb u hsu
      omega
    · intro t htu
      rw [hsb t (strLt_trans htu hsu), hub t htu]

theorem clockLtF_of_eq_left {a b c : Clock} (h : clockEqF a b) (h2 : clockLtF b c) :
    clockLtF a c := by
  obtain ⟨s, hs, hsb⟩ := h2
  exact ⟨s, by have := h s; omega, fun t hts => (h t).trans (hsb t hts)⟩

theorem clockLtF_of_eq_right {a b c : Clock} (h : clockLtF a b) (h2 : clockEqF b c) :
    clockLtF a c := by
  obtain ⟨s, hs, hsb⟩ := h
  exact ⟨s, by have := h2 s; omega, fun t hts => (hsb t hts).trans (h2 t)⟩

theorem specCharLt_asymm {c1 c2 : CharRecord} (h : specCharLt c1 c2) :
    ¬ specCharLt c2 c1 := by
  rintro (h' | ⟨heq', hx'⟩)
  · rcases h with h | ⟨heq, -⟩
    · exact clockLtF_asymm h h'
    · exact not_clockLtF_of_eq (clockEqF_symm heq) h'
  · rcases h with h | ⟨heq, hx⟩
    · exact not_clockLtF_of_eq (clockEqF_symm heq') h
    · rcases hx with hx | ⟨hse, hx⟩ <;> rcases hx' with hx' | ⟨hse', hx'⟩
      · exact strLt_asymm hx hx'
      · exact strLt_irrefl _ (hse' ▸ hx)
      · exact strLt_irrefl _ (hse ▸ hx')
      · exact strLt_asymm hx hx'

theorem specCharLt_trans {c1 c2 c3 : CharRecord} (h1 : specCharLt c1 c2)
    (h2 : specCharLt c2 c3) : specCharLt c1 c3 := by
  rcases h1 with h1 | ⟨heq1, hx1⟩ <;> rcases h2 with h2 | ⟨heq2, hx2⟩
  · exact Or.inl (clockLtF_trans h1 h2)
  · exact Or.inl (clockLtF_of_eq_right h1 heq2)
  · exact Or.inl (clockLtF_of_eq_left heq1 h2)
  · refine Or.inr ⟨fun s => (heq1 s).trans (heq2 s), ?_⟩
    rcases hx1 with hx1 | ⟨hse1, hx1⟩ <;> rcases hx2 with hx2 | ⟨hse2, hx2⟩
    · exact Or.inl (strLt_trans hx1 hx2)
    · exact Or.inl (hse2 ▸ hx1)
    · exact Or.inl (hse1 ▸ hx2)
    · exact Or.inr ⟨hse1.trans hse2, strLt_trans hx1 hx2⟩

theorem cmpLt_trans {c1 c2 c3 : CharRecord}
    (h1 : compareCharacters c1 c2 < 0) (h2 : compareCharacters c2 c3 < 0) :
    compareCharacters c1 c3 < 0 :=
  (compareCharacters_neg_iff c1 c3).mpr
    (specCharLt_trans ((compareCharacters_neg_iff c1 c2).mp h1)
      ((compareCharacters_neg_iff c2 c3).mp h2))

theorem cmpLt_asymm {c1 c2 : CharRecord} (h : compareCharacters c1 c2 < 0) :
    ¬ compareCharacters c2 c1 < 0 := fun h' =>
  specCharLt_asymm ((compareCharacters_neg_iff c1 c2).mp h)
    ((compareCharacters_neg_iff c2 c1).mp h')

theorem cmp_self (c : CharRecord) : compareCharacters c c = 0 :=
  (compareCharacters_zero_iff c c).mpr ⟨fun _ => rfl, rfl, rfl⟩

theorem cmpLt_of_not_lt_of_id_ne {x c : CharRecord} (hne : x.id ≠ c.id)
    (h : ¬ compareCharacters x c < 0) : compareCharacters c x < 0 := by
  rcases lt_trichotomy (compareCharacters x c) 0 with h' | h' | h'
  · exact absurd h' h
  · exact absurd ((compareCharacters_zero_iff x c).mp h').2.2 hne
  · exact (compareCharacters_neg_iff c x).mpr ((compareCharacters_pos_iff x c).mp h')

/-! Sorted insertion, as performed by `remoteInsert`'s scan. -/

/-- Strict sortedness of the character sequence under `compareCharacters`
(the section-4.1 structural invariant). -/
def SortedChars (l : List CharRecord) : Prop :=
  l.Pairwise (fun a b => compareCharacters a b < 0)

/-- Recursive form of the splice performed by `remoteInsert`: insert in
front of the first record not comparing strictly below the new one. -/
def sortedIns (c : CharRecord) : List CharRecord → List CharRecord
  | [] => [c]
  | x :: xs => if compareCharacters x c < 0 then x :: sortedIns c xs else c :: x :: xs

theorem splice_eq_sortedIns (c : CharRecord) :
    ∀ l : List CharRecord,
      l.take (insertIdx l c) ++ c :: l.drop (insertIdx l c) = sortedIns c l := by
  intro l
  induction l with
  | nil => rfl
  | cons x xs ih =>
    by_cases h : compareCharacters x c < 0
    · have hidx : insertIdx (x :: xs) c = insertIdx xs c + 1 := by
        simp [insertIdx, List.takeWhile_cons, h, Nat.add_comm]
      rw [hidx, List.take_succ_cons, List.drop_succ_cons, List.cons_append]
      unfold sortedIns
      rw [if_pos h, ih]
    · have hidx : insertIdx (x :: xs) c = 0 := by
        simp [insertIdx, List.takeWhile_cons, h]
      rw [hidx]
      unfold sortedIns
      rw [if_neg h]
      rfl

theorem sortedIns_perm (c : CharRecord) :
    ∀ l : List CharRecord, (sortedIns c l).Perm (c :: l) := by
  intro l
  induction l with
  | nil => exact List.Perm.refl _
  | cons x xs ih =>
    unfold sortedIns
    split
    · exact (List.Perm.cons x ih).trans (List.Perm.swap c x xs)
    · exact List.Perm.refl _

theorem sortedIns_sorted (c : CharRecord) :
    ∀ l : List CharRecord, SortedChars l → (∀ x ∈ l, x.id ≠ c.id) →
      SortedChars (sortedIns c l) := by
  intro l
  induction l with
  | nil =>
    intro _ _
    simp [sortedIns, SortedChars]
  | cons x xs ih =>
    intro hs hid
    have hx1 : ∀ y ∈ xs, compareCharacters x y < 0 := fun y hy =>
      List.rel_of_pairwise_cons hs hy
    have hs' : SortedChars xs := hs.of_cons
    unfold sortedIns
    by_cases h : compareCharacters x c < 0
    · rw [if_pos h]
      refine List.Pairwise.cons ?_ (ih hs' fun y hy => hid y (List.mem_cons_of_mem x hy))
      intro z hz
      rcases List.mem_cons.mp ((sortedIns_perm c xs).mem_iff.mp hz) with hz | hz
      · exact hz ▸ h
      · exact hx1 z hz
    · rw [if_neg h]
      have hcx : compareCharacters c x < 0 :=
        cmpLt_of_not_lt_of_id_ne (hid x (List.mem_cons_self x xs)) h
      refine List.Pairwise.cons ?_ hs
      intro z hz
      rcases List.mem_cons.mp hz with hz | hz
      · exact hz ▸ hcx
      · exact cmpLt_trans hcx (hx1 z hz)

/-! Tombstoning commutes with the order and acts like a pointwise map on
sequences with distinct ids. -/

/-- Tombstone a record exactly when it carries the given id. -/
def flipIf (tid : String) (x : CharRecord) : CharRecord :=
  if x.id = tid then { x with visible := false } else x

theorem flipIf_id (tid : String) (x : CharRecord) : (flipIf tid x).id = x.id := by
  unfold flipIf
  split <;> rfl

theorem cmp_flipIf_left (t : String) (x y : CharRecord) :
    compareCharacters (flipIf t x) y = compareCharacters x y := by
  unfold flipIf
  split <;> rfl

theorem cmp_flipIf_right (t : String) (x y : CharRecord) :
    compareCharacters x (flipIf t y) = compareCharacters x y := by
  unfold flipIf
  split <;> rfl

theorem setFirst_eq_map (t : String) :
    ∀ l : List CharRecord, (l.map (·.id)).Nodup →
      setVisibleFalseFirst l t = l.map (flipIf t) := by
  intro l
  induction l with
  | nil => intro _; rfl
  | cons c cs ih =>
    intro hnd
    rw [List.map_cons, List.nodup_cons] at hnd
    obtain ⟨hcid, hnd'⟩ := hnd
    unfold setVisibleFalseFirst
    by_cases h : c.id = t
    · rw [if_pos h, List.map_cons]
      have hcs : cs.map (flipIf t) = cs := by
        have : ∀ x ∈ cs, flipIf t x = id x := by
          intro x hx
          have hxne : x.id ≠ t := by
            intro hxt
            exact hcid (h ▸ hxt ▸ List.mem_map_of_mem (·.id) hx)
          simp [flipIf, hxne]
        rw [List.map_congr_left this, List.map_id]
      rw [hcs]
      have : flipIf t c = { c with visible := false } := by simp [flipIf, h]
      rw [this]
    · rw [if_neg h, List.map_cons, ih hnd']
      have : flipIf t c = c := by simp [flipIf, h]
      rw [this]

theorem sortedChars_map_flipIf (t : String) (l : List CharRecord) (hs : SortedChars l) :
    SortedChars (l.map (flipIf t)) := by
  unfold SortedChars
  rw [List.pairwise_map]
  refine hs.imp ?_
  intro a b h
  rw [cmp_flipIf_left, cmp_flipIf_right]
  exact h

theorem ids_map_flipIf (t : String) (l : List CharRecord) :
    (l.map (flipIf t)).map (·.id) = l.map (·.id) := by
  rw [List.map_map]
  exact List.map_congr_left fun x _ => flipIf_id t x

/-- Strictly sorted sequences are canonical: two sorted permutations of
the same records are equal. -/
theorem eq_of_perm_of_sortedChars :
    ∀ {l1 l2 : List CharRecord}, l1.Perm l2 → SortedChars l1 → SortedChars l2 →
      l1 = l2 := by
  intro l1
  induction l1 with
  | nil =>
    intro l2 hp _ _
    exact (hp.symm.eq_nil).symm ▸ rfl
  | cons a t1 ih =>
    intro l2 hp h1 h2
    have ha : a ∈ l2 := hp.mem_iff.mp (List.mem_cons_self a t1)
    obtain ⟨u, v, rfl⟩ := List.append_of_mem ha
    have hu : u = [] := by
      cases u with
      | nil => rfl
      | cons x u' =>
        exfalso
        have hxa : compareCharacters x a < 0 := by
          have := List.pairwise_append.mp h2
          exact this.2.2 x (List.mem_cons_self x u') a (List.mem_cons_self a v)
        have hxmem : x ∈ a :: t1 := hp.mem_iff.mpr (List.mem_append_left _ (List.mem_cons_self x u'))
        rcases List.mem_cons.mp hxmem with hx | hx
        · subst hx
          have := cmp_self x
          omega
        · exact cmpLt_asymm (List.rel_of_pairwise_cons h1 hx) hxa
    subst hu
    rw [List.nil_append] at hp h2 ⊢
    rw [ih (hp.cons_inv) h1.of_cons h2.of_cons]

/-! The multiset model of a run of remote operations. -/

/-- The insert records carried by a list of operations. -/
def insRecs (l : List Op) : List CharRecord :=
  l.filterMap fun o => match o with | .ins _ r => some r | .del _ _ => none

/-- Whether the operation list carries a delete of the given target id. -/
def hasDelB (l : List Op) (tid : String) : Bool :=
  l.any fun o => match o with | .del _ t => t == tid | .ins _ _ => false

/-- The record as it ends up in the document: tombstoned exactly when the
run carries a delete of its id. -/
def adjust (l : List Op) (r : CharRecord) : CharRecord :=
  { r with visible := r.visible && !hasDelB l r.id }

/-- Forbidden adjacency: a delete strictly before the insert of its own
target. -/
def opPair : Op → Op → Prop
  | .del _ t, .ins _ r => r.id ≠ t
  | _, _ => True

instance : DecidableRel opPair := fun a b =>
  match a, b with
  | .del _ t, .ins _ r => inferInstanceAs (Decidable (r.id ≠ t))
  | .del _ _, .del _ _ => .isTrue trivial
  | .ins _ _, .del _ _ => .isTrue trivial
  | .ins _ _, .ins _ _ => .isTrue trivial

/-- Causal ordering of a run: no delete precedes the insert of its target. -/
def CausalOK (l : List Op) : Prop := l.Pairwise opPair

/-- Well-formed runs carry pairwise-distinct record ids on their inserts
(the spec's unique-identity invariant). -/
def IdsNodup (l : List Op) : Prop := ((insRecs l).map (·.id)).Nodup

theorem insRecs_cons_ins (k : Clock) (r : CharRecord) (rest : List Op) :
    insRecs (.ins k r :: rest) = r :: insRecs rest := by
  simp [insRecs, List.filterMap_cons]

theorem insRecs_cons_del (k : Clock) (t : String) (rest : List Op) :
    insRecs (.del k t :: rest) = insRecs rest := by
  simp [insRecs, List.filterMap_cons]

theorem adjust_nil (r : CharRecord) : adjust [] r = r := by
  cases r
  simp [adjust, hasDelB]

theorem adjust_cons_ins (k : Clock) (r' : CharRecord) (rest : List Op) (x : CharRecord) :
    adjust (.ins k r' :: rest) x = adjust rest x := by
  simp [adjust, hasDelB, List.any_cons]

theorem adjust_cons_del (k : Clock) (t : String) (rest : List Op) (x : CharRecord) :
    adjust (.del k t :: rest) x = adjust rest (flipIf t x) := by
  cases x with
  | mk value id siteId vectorClock visible =>
    by_cases h : id = t
    · subst h
      simp [adjust, hasDelB, flipIf, List.any_cons]
    · have hbeq : (t == id) = false := beq_eq_false_iff_ne.mpr (Ne.symm h)
      simp [adjust, hasDelB, flipIf, List.any_cons, h, hbeq]

theorem insRecs_id_ne_of_causal {k : Clock} {t : String} {rest : List Op}
    (h : CausalOK (.del k t :: rest)) : ∀ r ∈ insRecs rest, r.id ≠ t := by
  intro r hr
  obtain ⟨o, ho, hmo⟩ := List.mem_filterMap.mp hr
  have hp : opPair (.del k t) o := List.rel_of_pairwise_cons h ho
  cases o with
  | ins k' r' =>
    simp only [Option.some.injEq] at hmo
    exact hmo ▸ hp
  | del _ _ => exact Option.noConfusion hmo

theorem any_id_eq_false {l : List CharRecord} {i : String}
    (h : ∀ x ∈ l, x.id ≠ i) : (l.any fun x => decide (x.id = i)) = false := by
  rw [List.any_eq_false]
  intro x hx
  simp [h x hx]

/-- Main invariant: running a causally ordered, id-distinct list of remote
operations on a strictly sorted document yields (up to order) the old
records and the inserted records, each tombstoned exactly when the run
deletes its id — and the result is strictly sorted. -/
theorem applyOps_characterization :
    ∀ (l : List Op) (s : CRDT),
      CausalOK l →
      (s.characters.map (·.id) ++ (insRecs l).map (·.id)).Nodup →
      SortedChars s.characters →
      ((applyOps l s).characters.Perm ((s.characters ++ insRecs l).map (adjust l)) ∧
        SortedChars (applyOps l s).characters) := by
  intro l
  induction l with
  | nil =>
    intro s _ _ hs
    have hmap : (s.characters ++ insRecs []).map (adjust []) = s.characters := by
      have h1 : (s.characters ++ insRecs []).map (adjust []) =
          (s.characters ++ insRecs []).map id := List.map_congr_left fun x _ => adjust_nil x
      simp only [h1, List.map_id]
      simp [insRecs]
    rw [hmap]
    exact ⟨List.Perm.refl _, hs⟩
  | cons op rest ih =>
    intro s hc hnd hs
    have hstep : applyOps (op :: rest) s = applyOps rest (applyRemote s op) := rfl
    cases op with
    | ins k r =>
      rw [insRecs_cons_ins, List.map_cons] at hnd
      have hndparts := List.nodup_append.mp hnd
      have hrid_s : ∀ x ∈ s.characters, x.id ≠ r.id := by
        intro x hx hxe
        exact hndparts.2.2 (List.mem_map_of_mem (·.id) hx)
          (hxe ▸ List.mem_cons_self r.id _)
      have hchars' : (applyRemote s (.ins k r)).characters = sortedIns r s.characters := by
        show (remoteInsert s k r).characters = sortedIns r s.characters
        unfold remoteInsert
        rw [any_id_eq_false hrid_s]
        simp only [Bool.false_eq_true, if_false]
        exact splice_eq_sortedIns r s.characters
      have hids' : ((applyRemote s (.ins k r)).characters.map (·.id)).Perm
          (r.id :: s.characters.map (·.id)) := by
        rw [hchars']
        exact (sortedIns_perm r s.characters).map (·.id)
      have hs' : SortedChars (applyRemote s (.ins k r)).characters := by
        rw [hchars']
        exact sortedIns_sorted r s.characters hs hrid_s
      have hnd' : ((applyRemote s (.ins k r)).characters.map (·.id) ++
          (insRecs rest).map (·.id)).Nodup := by
        have hp : ((applyRemote s (.ins k r)).characters.map (·.id) ++
            (insRecs rest).map (·.id)).Perm
            (s.characters.map (·.id) ++ r.id :: (insRecs rest).map (·.id)) := by
          refine (hids'.append_right _).trans ?_
          rw [List.cons_append]
          exact List.perm_middle.symm
        exact hp.nodup_iff.mpr hnd
      obtain ⟨hperm, hsorted⟩ := ih (applyRemote s (.ins k r)) hc.of_cons hnd' hs'
      rw [hstep]
      refine ⟨?_, hsorted⟩
      refine hperm.trans ?_
      have hmapc : ((s.characters ++ insRecs (.ins k r :: rest)).map (adjust (.ins k r :: rest))) =
          ((s.characters ++ r :: insRecs rest).map (adjust rest)) := by
        rw [insRecs_cons_ins]
        exact List.map_congr_left fun x _ => adjust_cons_ins k r rest x
      rw [hmapc]
      refine List.Perm.map (adjust rest) ?_
      rw [hchars']
      refine ((sortedIns_perm r s.characters).append_right _).trans ?_
      rw [List.cons_append]
      exact List.perm_middle.symm
    | del k t =>
      rw [insRecs_cons_del] at hnd
      have hnds : (s.characters.map (·.id)).Nodup := (List.nodup_append.mp hnd).1
      have hchars' : (applyRemote s (.del k t)).characters = s.characters.map (flipIf t) := by
        show (remoteDelete s k t).characters = _
        unfold remoteDelete
        exact setFirst_eq_map t s.characters hnds
      have hs' : SortedChars (applyRemote s (.del k t)).characters := by
        rw [hchars']
        exact sortedChars_map_flipIf t s.characters hs
      have hnd' : ((applyRemote s (.del k t)).characters.map (·.id) ++
          (insRecs rest).map (·.id)).Nodup := by
        rw [hchars', ids_map_flipIf]
        exact hnd
      obtain ⟨hperm, hsorted⟩ := ih (applyRemote s (.del k t)) hc.of_cons hnd' hs'
      rw [hstep]
      refine ⟨?_, hsorted⟩
      refine hperm.trans ?_
      rw [hchars', insRecs_cons_del]
      have heq : ((s.characters.map (flipIf t) ++ insRecs rest).map (adjust rest)) =
          ((s.characters ++ insRecs rest).map (adjust (.del k t :: rest))) := by
        rw [List.map_append, List.map_append]
        congr 1
        · rw [List.map_map]
          exact (List.map_congr_left fun x _ => adjust_cons_del k t rest x).symm
        · exact (List.map_congr_left fun x hx => by
            rw [adjust_cons_del]
            rw [show flipIf t x = x from if_neg (insRecs_id_ne_of_causal hc x hx)]).symm
      rw [heq]

/-! Permutation invariance of the model and the convergence theorem. -/

theorem hasDelB_perm {l1 l2 : List Op} (hp : l1.Perm l2) (t : String) :
    hasDelB l1 t = hasDelB l2 t := by
  have hiff : (hasDelB l1 t = true) ↔ (hasDelB l2 t = true) := by
    unfold hasDelB
    rw [List.any_eq_true, List.any_eq_true]
    constructor
    · rintro ⟨o, ho, hpo⟩
      exact ⟨o, hp.mem_iff.mp ho, hpo⟩
    · rintro ⟨o, ho, hpo⟩
      exact ⟨o, hp.mem_iff.mpr ho, hpo⟩
  cases h1 : hasDelB l1 t <;> cases h2 : hasDelB l2 t
  · rfl
  · exact absurd (hiff.mpr h2) (by simp [h1])
  · exact absurd (hiff.mp h1) (by simp [h2])
  · rfl

theorem adjust_eq_of_perm {l1 l2 : List Op} (hp : l1.Perm l2) (r : CharRecord) :
    adjust l1 r = adjust l2 r := by
  unfold adjust
  rw [hasDelB_perm hp]

instance (l : List Op) : Decidable (CausalOK l) :=
  inferInstanceAs (Decidable (l.Pairwise opPair))

instance (l : List Op) : Decidable (IdsNodup l) := by
  unfold IdsNodup
  infer_instance

/-- C1 counterexample: the set `{Insert "B-0", Delete "B-0"}` applied to
fresh replicas in its two orderings does not converge — insert-then-delete
leaves a tombstone, while delete-then-insert drops the delete and leaves
the record visible.  The two runs are permutations of each other, so the
claim as stated (convergence for every two orderings of every set of
insert and delete operations) is false. -/
theorem convergence_fails_for_delete_before_insert :
    ([Op.ins [("B", 1)] ⟨'x', "B-0", "B", [("B", 1)], true⟩,
      Op.del [("B", 2)] "B-0"].Perm
     [Op.del [("B", 2)] "B-0",
      Op.ins [("B", 1)] ⟨'x', "B-0", "B", [("B", 1)], true⟩]) ∧
    (applyOps [Op.ins [("B", 1)] ⟨'x', "B-0", "B", [("B", 1)], true⟩,
        Op.del [("B", 2)] "B-0"] (initCRDT "A")).characters ≠
      (applyOps [Op.del [("B", 2)] "B-0",
        Op.ins [("B", 1)] ⟨'x', "B-0", "B", [("B", 1)], true⟩] (initCRDT "A")).characters := by
  decide

/-- C1 (amended).  Convergence holds for causally ordered runs: for every
two permutations of a finite set of remote operations whose insert records
carry pairwise-distinct ids (the spec's unique-identity invariant), such
that in neither ordering a Delete precedes the Insert of its target,
applying the two orderings to two fresh replicas via
`remoteInsert` / `remoteDelete` yields identical character sequences —
same records, same order, same visible flags — and identical visible
text. -/
theorem crdt_convergence (A B : String) (l1 l2 : List Op)
    (hp : l1.Perm l2) (hc1 : CausalOK l1) (hc2 : CausalOK l2) (hids : IdsNodup l1) :
    (applyOps l1 (initCRDT A)).characters = (applyOps l2 (initCRDT B)).characters ∧
    getText (applyOps l1 (initCRDT A)) = getText (applyOps l2 (initCRDT B)) := by
  have hids2 : IdsNodup l2 := by
    unfold IdsNodup at hids ⊢
    exact (((hp.filterMap _).map _).nodup_iff).mp hids
  have h1 := applyOps_characterization l1 (initCRDT A) hc1
    (by simpa [initCRDT] using hids) (by simp [initCRDT, SortedChars])
  have h2 := applyOps_characterization l2 (initCRDT B) hc2
    (by simpa [initCRDT] using hids2) (by simp [initCRDT, SortedChars])
  have hchain : (((initCRDT A).characters ++ insRecs l1).map (adjust l1)).Perm
      (((initCRDT B).characters ++ insRecs l2).map (adjust l2)) := by
    simp only [initCRDT, List.nil_append]
    have e1 : (insRecs l1).map (adjust l1) = (insRecs l1).map (adjust l2) :=
      List.map_congr_left fun r _ => adjust_eq_of_perm hp r
    rw [e1]
    exact (hp.filterMap _).map _
  have hchars : (applyOps l1 (initCRDT A)).characters =
      (applyOps l2 (initCRDT B)).characters :=
    eq_of_perm_of_sortedChars (h1.1.trans (hchain.trans h2.1.symm)) h1.2 h2.2
  refine ⟨hchars, ?_⟩
  unfold getText
  rw [hchars]

/-- Witness for C1: two concurrent inserts from sites "B" and "C" applied
in both orders to fresh replicas "A" and "B" give the same sequence. -/
theorem crdt_convergence_witness :
    (([Op.ins [("B", 1)] ⟨'x', "B-0", "B", [("B", 1)], true⟩,
       Op.ins [("C", 1)] ⟨'y', "C-0", "C", [("C", 1)], true⟩].Perm
      [Op.ins [("C", 1)] ⟨'y', "C-0", "C", [("C", 1)], true⟩,
       Op.ins [("B", 1)] ⟨'x', "B-0", "B", [("B", 1)], true⟩]) ∧
     CausalOK [Op.ins [("B", 1)] ⟨'x', "B-0", "B", [("B", 1)], true⟩,
       Op.ins [("C", 1)] ⟨'y', "C-0", "C", [("C", 1)], true⟩] ∧
     CausalOK [Op.ins [("C", 1)] ⟨'y', "C-0", "C", [("C", 1)], true⟩,
       Op.ins [("B", 1)] ⟨'x', "B-0", "B", [("B", 1)], true⟩] ∧
     IdsNodup [Op.ins [("B", 1)] ⟨'x', "B-0", "B", [("B", 1)], true⟩,
       Op.ins [("C", 1)] ⟨'y', "C-0", "C", [("C", 1)], true⟩]) ∧
    ((applyOps [Op.ins [("B", 1)] ⟨'x', "B-0", "B", [("B", 1)], true⟩,
        Op.ins [("C", 1)] ⟨'y', "C-0", "C", [("C", 1)], true⟩] (initCRDT "A")).characters =
      (applyOps [Op.ins [("C", 1)] ⟨'y', "C-0", "C", [("C", 1)], true⟩,
        Op.ins [("B", 1)] ⟨'x', "B-0", "B", [("B", 1)], true⟩] (initCRDT "B")).characters ∧
     getText (applyOps [Op.ins [("B", 1)] ⟨'x', "B-0", "B", [("B", 1)], true⟩,
        Op.ins [("C", 1)] ⟨'y', "C-0", "C", [("C", 1)], true⟩] (initCRDT "A")) =
      getText (applyOps [Op.ins [("C", 1)] ⟨'y', "C-0", "C", [("C", 1)], true⟩,
        Op.ins [("B", 1)] ⟨'x', "B-0", "B", [("B", 1)], true⟩] (initCRDT "B"))) :=
  ⟨⟨by decide, by decide, by decide, by decide⟩,
    crdt_convergence "A" "B" _ _ (by decide) (by decide) (by decide) (by decide)⟩

end Collab

